import Mathlib

/-!
Verification of the weighted partial MaxSAT solver (`cnf.py` / `csp.py`).

The Python source is shallowly embedded below:
* Python `dict`s (`assignments`, `self.assigned_variables`, …) become
  association lists `List (String × Bool)` with first-match lookup; a Python
  dict has unique keys and preserves insertion order, which the association
  lists reproduce on every reachable state.
* Instance methods reading `self.assigned_variables` take the assignment as an
  explicit parameter.
* `CSP.solve`'s inner recursive `backtrack` threads an explicit search state
  (`SState`) and is given a fuel parameter for termination; `solve` passes
  `|variables| + 1`, which is shown sufficient on all reachable states.
* The Python set comprehension `{lit.strip('~') for lit in cnf.vars}`
  iterates in unspecified hash order; we fix a canonical order via
  `List.dedup`.  No verified property depends on the order.
-/

/-- A Python-dict style assignment: variable name to boolean. -/
abbrev Assignment := List (String × Bool)

/-- `assignments.get(x, False)`. -/
def aget (a : Assignment) (x : String) : Bool := (List.lookup x a).getD false

/-- `x in assignments`. -/
def amem (a : Assignment) (x : String) : Bool := (List.lookup x a).isSome

/-- `d[x] = b` on (a copy of) a dict: update in place if present, else append. -/
def aset (a : Assignment) (x : String) (b : Bool) : Assignment :=
  if amem a x then a.map (fun p => if p.1 == x then (x, b) else p) else a ++ [(x, b)]

/-- `del d[x]` (guarded by `if x in d`), as in `CSP.unassign`. -/
def unassignKey (a : Assignment) (x : String) : Assignment :=
  a.filter (fun p => p.1 != x)

/-- The three negation markers recognized by `CNF.evaluate_clause`. -/
def isNegMarker (c : Char) : Bool := c == '-' || c == '~' || c == '¬'

/-- `literal.lstrip('-~¬')` (cnf.py line 52). -/
def lstripMarkers (s : String) : String := ⟨s.data.dropWhile isNegMarker⟩

/-- `lit.strip('~')`: strips `'~'` from BOTH ends (csp.py lines 31, 112, 198, 238, 261). -/
def stripTilde (s : String) : String :=
  ⟨((s.data.dropWhile (· == '~')).reverse.dropWhile (· == '~')).reverse⟩

/-- `literal.startswith('-') or literal.startswith('~') or literal.startswith('¬')`. -/
def isNegLit (s : String) : Bool :=
  match s.data with
  | [] => false
  | c :: _ => isNegMarker c

/-- The variable a literal actually reads in `CNF.evaluate_clause`:
the whole string for a positive literal, the marker-stripped name for a negated one. -/
def readVar (lit : String) : String := if isNegLit lit then lstripMarkers lit else lit

/-- A literal is `good` when the variable it reads coincides with its
`strip('~')` form, i.e. negation is written with `~` markers only and the
core name has no trailing `~`. -/
def goodLit (lit : String) : Prop := readVar lit = stripTilde lit

instance (lit : String) : Decidable (goodLit lit) := by
  unfold goodLit; infer_instance

/-- The `CNF` class (cnf.py lines 1-14).  A soft clause is its literal list
paired with its (already integer-coerced) trailing weight. -/
structure CNF where
  vars : List String
  hard_clauses : List (List String)
  soft_clauses : List (List String × Int)

/-- `CNF.evaluate_negation` (cnf.py lines 39-54). -/
def evaluate_negation (lit : String) (a : Assignment) : Bool :=
  !(aget a (lstripMarkers lit))

/-- `CNF.evaluate_clause` (cnf.py lines 16-37). -/
def evaluate_clause (clause : List String) (a : Assignment) : Bool :=
  clause.any (fun lit => if isNegLit lit then evaluate_negation lit a else aget a lit)

/-- `CNF.calculate_weight` (cnf.py lines 56-73). -/
def calculate_weight (cnf : CNF) (a : Assignment) : Int :=
  cnf.soft_clauses.foldl (fun tw sc => if evaluate_clause sc.1 a then tw + sc.2 else tw) 0

/-- All hard clauses satisfied (the spec's feasibility notion, stated with the
source's `evaluate_clause`). -/
def allHardSat (cnf : CNF) (a : Assignment) : Bool :=
  cnf.hard_clauses.all (fun cl => evaluate_clause cl a)

/-- The static part of the `CSP` solver object (csp.py lines 4-33).
`degree_variables` and `var_constraints` are initialized by the source but
never read on the `solve()` path, so they are omitted.  The mutable fields
(`assigned_variables`, `best_solution`, `best_weight`) are threaded explicitly
through the search (`SState`) and through `CSPObj` for whole-object claims. -/
structure CSP where
  cnf : CNF
  use_mcv : Bool
  use_mrv : Bool
  use_lcv : Bool
  vars : List String
  constraints : List ((Assignment → Bool) × List String)

/-- `{lit.strip('~') for lit in cnf.vars}` (csp.py line 31), with the
set's unspecified iteration order fixed by `List.dedup`. -/
def realVars (cnf : CNF) : List String := (cnf.vars.map stripTilde).dedup

/-- `CSP.__init__` (csp.py lines 5-33): raises `ValueError` iff both MCV and
MRV are requested; otherwise fills the variable map from the formula. -/
def CSP.init (cnf : CNF) (use_mcv use_mrv use_lcv : Bool) : Except String CSP :=
  if use_mcv && use_mrv then
    Except.error "MRV and MCV cannot be used together. Please select one heuristic."
  else
    Except.ok { cnf := cnf, use_mcv := use_mcv, use_mrv := use_mrv, use_lcv := use_lcv,
                vars := realVars cnf, constraints := [] }

/-- `CSP.add_constraint` (csp.py lines 45-59; the `var_constraints` index it
also maintains is never read by the search). -/
def CSP.add_constraint (csp : CSP) (f : Assignment → Bool) (vs : List String) : CSP :=
  { csp with constraints := csp.constraints ++ [(f, vs)] }

/-- `CSP.is_constraint_satisfied` (csp.py lines 81-94): evaluated on the
assignment it is handed — in the source, always `self.assigned_variables`. -/
def is_constraint_satisfied (a : Assignment) (c : (Assignment → Bool) × List String) : Bool :=
  if c.2.all (fun v => amem a v) then c.1 a else true

/-- The `fully_assigned` filter predicate used at csp.py lines 112, 198, 261:
every literal's `strip('~')` form is a key of the assignment. -/
def clauseFullyAssigned (a : Assignment) (cl : List String) : Bool :=
  cl.all (fun lit => amem a (stripTilde lit))

/-- `fully_assigned` hard-clause list (csp.py lines 111-114 and 260-263). -/
def fullyAssignedHard (csp : CSP) (a : Assignment) : List (List String) :=
  csp.cnf.hard_clauses.filter (fun cl => clauseFullyAssigned a cl)

/-- `unsatisfied` hard-clause list (csp.py lines 115-118 and 264-267). -/
def unsatisfiedHard (csp : CSP) (a : Assignment) : List (List String) :=
  (fullyAssignedHard csp a).filter (fun cl => !evaluate_clause cl a)

/-- `CSP.is_consistent` (csp.py lines 96-127).  Note the source checks the
auxiliary constraints via `is_constraint_satisfied`, which reads
`self.assigned_variables` — NOT the scratch `temp_assignment`. -/
def is_consistent (csp : CSP) (assigned : Assignment) (v : String) (value : Bool) : Bool :=
  if !(unsatisfiedHard csp (aset assigned v value)).isEmpty then false
  else csp.constraints.all (fun c => is_constraint_satisfied assigned c)

/-- `CSP.is_complete` (csp.py lines 129-136). -/
def is_complete (csp : CSP) (assigned : Assignment) : Bool :=
  assigned.length == csp.vars.length

/-- The `legal` value count of `CSP.minimum_remaining_value`'s inner loop. -/
def legalCount (csp : CSP) (assigned : Assignment) (v : String) : Nat :=
  (if is_consistent csp assigned v true then 1 else 0) +
  (if is_consistent csp assigned v false then 1 else 0)

/-- `unassigned = [var for var in self.variables if var not in self.assigned_variables]`
(csp.py lines 145 and 211). -/
def unassignedVars (csp : CSP) (assigned : Assignment) : List String :=
  csp.vars.filter (fun v => !amem assigned v)

/-- `CSP.minimum_remaining_value` (csp.py lines 138-156). -/
def minimum_remaining_value (csp : CSP) (assigned : Assignment) : Option String :=
  ((unassignedVars csp assigned).foldl
    (fun acc v => if legalCount csp assigned v < acc.1 then (legalCount csp assigned v, some v) else acc)
    ((3 : Nat), (none : Option String))).2

/-- The `degree` count of `CSP.most_constraining_variable`'s inner loop. -/
def mcvDegree (csp : CSP) (assigned : Assignment) (v : String) : Nat :=
  csp.cnf.hard_clauses.foldl
    (fun d cl =>
      if evaluate_clause cl assigned then d
      else if cl.contains v || cl.contains ("~" ++ v) then d + 1 else d) 0

/-- `CSP.most_constraining_variable` (csp.py lines 158-180). -/
def most_constraining_variable (csp : CSP) (assigned : Assignment)
    (unassigned : List String) : Option String :=
  (unassigned.foldl
    (fun acc v => if (mcvDegree csp assigned v : Int) > acc.1 then ((mcvDegree csp assigned v : Int), some v) else acc)
    ((-1 : Int), (none : Option String))).2

/-- The `violation` count of `CSP.least_constraining_value`'s inner loop. -/
def lcvViolations (csp : CSP) (assigned : Assignment) (v : String) (value : Bool) : Nat :=
  let temp := aset assigned v value
  (csp.cnf.hard_clauses.filter
    (fun cl => clauseFullyAssigned temp cl && !evaluate_clause cl temp)).length

/-- `CSP.least_constraining_value` (csp.py lines 182-202). -/
def least_constraining_value (csp : CSP) (assigned : Assignment) (v : String) : Bool :=
  if lcvViolations csp assigned v true ≤ lcvViolations csp assigned v false then true else false

/-- `CSP.select_unassigned_variable` (csp.py lines 204-225). -/
def select_unassigned_variable (csp : CSP) (assigned : Assignment) : Option String :=
  match (if csp.use_mrv then minimum_remaining_value csp assigned else none) with
  | some v => some v
  | none =>
    match (if csp.use_mcv && !csp.use_mrv then
             most_constraining_variable csp assigned (unassignedVars csp assigned)
           else none) with
    | some v => some v
    | none => (unassignedVars csp assigned).head?

/-- `CSP.optimistic_bound` (csp.py lines 227-243). -/
def optimistic_bound (csp : CSP) (assignments : Assignment) : Int :=
  csp.cnf.soft_clauses.foldl
    (fun bound sc =>
      if sc.1.all (fun lit => amem assignments (stripTilde lit)) then
        (if evaluate_clause sc.1 assignments then bound + sc.2 else bound)
      else bound + sc.2) 0

/-- The mutable state of the search: `self.assigned_variables`,
`self.best_solution`, `self.best_weight`. -/
structure SState where
  assigned : Assignment
  best_solution : Option Assignment
  best_weight : Int

/-- The inner `backtrack` of `CSP.solve` (csp.py lines 258-296), with a fuel
parameter for termination (the Python recursion terminates because the
assignment strictly grows; `solve` supplies enough fuel for that depth). -/
def backtrack (csp : CSP) : Nat → SState → SState
  | 0, st => st
  | fuel + 1, st =>
    if !(unsatisfiedHard csp st.assigned).isEmpty then st
    else if optimistic_bound csp st.assigned ≤ st.best_weight then st
    else if is_complete csp st.assigned then
      (if calculate_weight csp.cnf st.assigned > st.best_weight then
        { st with best_weight := calculate_weight csp.cnf st.assigned,
                  best_solution := some st.assigned }
      else st)
    else
      match select_unassigned_variable csp st.assigned with
      | none => st
      | some v =>
        (if csp.use_lcv then
            [least_constraining_value csp st.assigned v, !least_constraining_value csp st.assigned v]
          else [true, false]).foldl
          (fun st' value =>
            if is_consistent csp st'.assigned v value then
              let st1 := backtrack csp fuel { st' with assigned := aset st'.assigned v value }
              { st1 with assigned := unassignKey st1.assigned v }
            else st') st

/-- One iteration of the `for value in values` loop of `backtrack`. -/
def btVal (csp : CSP) (fuel : Nat) (v : String) (st' : SState) (value : Bool) : SState :=
  if is_consistent csp st'.assigned v value then
    let st1 := backtrack csp fuel { st' with assigned := aset st'.assigned v value }
    { st1 with assigned := unassignKey st1.assigned v }
  else st'

/-- The full state after `CSP.solve` (csp.py lines 245-299): resets the
incumbent and the working assignment, then runs `backtrack`. -/
def solveState (csp : CSP) : SState :=
  backtrack csp (csp.vars.length + 1)
    { assigned := [], best_solution := none, best_weight := -1 }

/-- `CSP.solve`'s return value `(self.best_solution, self.best_weight)`. -/
def CSP.solve (csp : CSP) : Option Assignment × Int :=
  ((solveState csp).best_solution, (solveState csp).best_weight)

/-- The solver object with its mutable fields, for claims about the state a
call to `solve()` leaves behind.  Auxiliary constraint predicates are Lean
functions, hence pure. -/
structure CSPObj where
  csp : CSP
  assigned_variables : Assignment
  best_solution : Option Assignment
  best_weight : Int

/-- `CSP.solve` viewed as a method: returns the updated object and the pair. -/
def CSPObj.solve (s : CSPObj) : CSPObj × (Option Assignment × Int) :=
  ({ s with assigned_variables := (solveState s.csp).assigned,
            best_solution := (solveState s.csp).best_solution,
            best_weight := (solveState s.csp).best_weight },
   ((solveState s.csp).best_solution, (solveState s.csp).best_weight))

/-! ### Association-list lemmas -/

theorem lookup_none_iff {l : Assignment} {x : String} :
    List.lookup x l = none ↔ x ∉ l.map Prod.fst := by
  induction l with
  | nil => simp
  | cons q t ih =>
    rcases q with ⟨k, b⟩
    simp only [List.lookup, List.map_cons, List.mem_cons]
    cases hk : x == k
    · simp only [beq_eq_false_iff_ne, ne_eq] at hk
      simp [ih, hk]
    · simp only [beq_iff_eq] at hk
      simp [hk]

theorem lookup_isSome_iff {l : Assignment} {x : String} :
    (List.lookup x l).isSome = true ↔ x ∈ l.map Prod.fst := by
  induction l with
  | nil => simp [List.lookup]
  | cons q t ih =>
    rcases q with ⟨k, b⟩
    simp only [List.lookup, List.map_cons, List.mem_cons]
    cases hk : x == k
    · simp only [beq_eq_false_iff_ne, ne_eq] at hk
      simp [ih, hk]
    · simp only [beq_iff_eq] at hk
      simp [hk]

theorem amem_iff_mem_keys {l : Assignment} {x : String} :
    amem l x = true ↔ x ∈ l.map Prod.fst := by
  unfold amem; exact lookup_isSome_iff

theorem lookup_append_some {l₁ l₂ : Assignment} {x : String} {b : Bool}
    (h : List.lookup x l₁ = some b) : List.lookup x (l₁ ++ l₂) = some b := by
  induction l₁ with
  | nil => simp [List.lookup] at h
  | cons q t ih =>
    rcases q with ⟨k, c⟩
    simp only [List.lookup, List.cons_append] at h ⊢
    cases hk : x == k <;> simp [hk] at h ⊢ <;> simp_all

theorem lookup_append_none {l₁ l₂ : Assignment} {x : String}
    (h : List.lookup x l₁ = none) : List.lookup x (l₁ ++ l₂) = List.lookup x l₂ := by
  induction l₁ with
  | nil => simp
  | cons q t ih =>
    rcases q with ⟨k, c⟩
    simp only [List.lookup, List.cons_append] at h ⊢
    cases hk : x == k
    · simp only [hk] at h ⊢
      exact ih h
    · simp only [hk] at h ⊢
      cases h

theorem aset_of_not_mem {a : Assignment} {v : String} {b : Bool}
    (h : amem a v = false) : aset a v b = a ++ [(v, b)] := by
  unfold aset; rw [h]; simp

theorem lookup_aset_of_not_mem {a : Assignment} {v : String} {b : Bool}
    (h : amem a v = false) (x : String) :
    List.lookup x (aset a v b) = if x = v then some b else List.lookup x a := by
  rw [aset_of_not_mem h]
  by_cases hx : x = v
  · subst hx
    have hn : List.lookup x a = none := by
      unfold amem at h
      cases hl : List.lookup x a <;> simp [hl] at h ⊢
    rw [lookup_append_none hn]
    simp [List.lookup]
  · simp only [if_neg hx]
    cases hl : List.lookup x a with
    | some c => exact lookup_append_some hl
    | none =>
      rw [lookup_append_none hl]
      have hbeq : (x == v) = false := beq_eq_false_iff_ne.mpr hx
      simp [List.lookup, hbeq, hl]

theorem unassign_aset {a : Assignment} {v : String} {b : Bool}
    (h : amem a v = false) : unassignKey (aset a v b) v = a := by
  rw [aset_of_not_mem h]
  unfold unassignKey
  rw [List.filter_append]
  have h1 : a.filter (fun p => p.1 != v) = a := by
    apply List.filter_eq_self.mpr
    intro p hp
    have hv : v ∉ a.map Prod.fst := by
      rw [← amem_iff_mem_keys]; simp [h]
    simp only [bne_iff_ne, ne_eq, decide_eq_true_eq]
    intro hc
    exact hv (hc ▸ List.mem_map_of_mem Prod.fst hp)
  have h2 : List.filter (fun p => p.1 != v) [(v, b)] = [] := by simp
  rw [h1, h2, List.append_nil]

theorem keys_aset_of_not_mem {a : Assignment} {v : String} {b : Bool}
    (h : amem a v = false) :
    (aset a v b).map Prod.fst = a.map Prod.fst ++ [v] := by
  rw [aset_of_not_mem h]; simp

/-! ### Congruence lemmas for clause evaluation -/

theorem listAny_congr {α : Type} {f g : α → Bool} :
    ∀ {l : List α}, (∀ x ∈ l, f x = g x) → l.any f = l.any g := by
  intro l
  induction l with
  | nil => intro _; rfl
  | cons x t ih =>
    intro h
    simp only [List.any_cons]
    rw [h x (by simp), ih (fun y hy => h y (by simp [hy]))]

theorem listAll_congr {α : Type} {f g : α → Bool} :
    ∀ {l : List α}, (∀ x ∈ l, f x = g x) → l.all f = l.all g := by
  intro l
  induction l with
  | nil => intro _; rfl
  | cons x t ih =>
    intro h
    simp only [List.all_cons]
    rw [h x (by simp), ih (fun y hy => h y (by simp [hy]))]

theorem lit_eval_readVar (lit : String) (a : Assignment) :
    (if isNegLit lit then evaluate_negation lit a else aget a lit)
      = (if isNegLit lit then !(aget a (readVar lit)) else aget a (readVar lit)) := by
  unfold readVar evaluate_negation
  cases h : isNegLit lit <;> simp [h]

theorem evaluate_clause_congr {cl : List String} {a b : Assignment}
    (h : ∀ lit ∈ cl, aget a (readVar lit) = aget b (readVar lit)) :
    evaluate_clause cl a = evaluate_clause cl b := by
  unfold evaluate_clause
  apply listAny_congr
  intro lit hl
  rw [lit_eval_readVar, lit_eval_readVar, h lit hl]

theorem evaluate_clause_ext {cl : List String} {a b : Assignment}
    (h : ∀ x, List.lookup x a = List.lookup x b) :
    evaluate_clause cl a = evaluate_clause cl b := by
  apply evaluate_clause_congr
  intro lit _
  unfold aget
  rw [h]

theorem wfold_ext_aux {a b : Assignment} (h : ∀ x, List.lookup x a = List.lookup x b) :
    ∀ (l : List (List String × Int)) (acc : Int),
      l.foldl (fun tw sc => if evaluate_clause sc.1 a then tw + sc.2 else tw) acc
        = l.foldl (fun tw sc => if evaluate_clause sc.1 b then tw + sc.2 else tw) acc := by
  intro l
  induction l with
  | nil => intro _; rfl
  | cons sc t ih =>
    intro acc
    simp only [List.foldl_cons]
    rw [@evaluate_clause_ext sc.1 _ _ h]
    exact ih _

theorem calculate_weight_ext {cnf : CNF} {a b : Assignment}
    (h : ∀ x, List.lookup x a = List.lookup x b) :
    calculate_weight cnf a = calculate_weight cnf b :=
  wfold_ext_aux h cnf.soft_clauses 0

theorem allHardSat_ext {cnf : CNF} {a b : Assignment}
    (h : ∀ x, List.lookup x a = List.lookup x b) :
    allHardSat cnf a = allHardSat cnf b := by
  unfold allHardSat
  exact listAll_congr (fun cl _ => evaluate_clause_ext h)

/-! ### Extension of partial assignments -/

/-- `c` agrees with `p` on every variable `p` assigns. -/
def Extends (c p : Assignment) : Prop :=
  ∀ x b, List.lookup x p = some b → List.lookup x c = some b

theorem extends_nil (c : Assignment) : Extends c [] := by
  intro x b h
  simp [List.lookup] at h

theorem extends_aset {c p : Assignment} {v : String} {b : Bool}
    (hv : amem p v = false) (hc : List.lookup v c = some b) (h : Extends c p) :
    Extends c (aset p v b) := by
  intro x w hx
  rw [lookup_aset_of_not_mem hv] at hx
  by_cases hxv : x = v
  · subst hxv
    simp only [if_pos rfl, Option.some.injEq] at hx
    exact hx ▸ hc
  · rw [if_neg hxv] at hx
    exact h x w hx

theorem aget_eq_of_extends_mem {c p : Assignment} {x : String}
    (h : Extends c p) (hm : amem p x = true) : aget c x = aget p x := by
  unfold amem at hm
  cases hl : List.lookup x p with
  | none => simp [hl] at hm
  | some b =>
    unfold aget
    rw [hl, h x b hl]

/-- On a hard clause that is `fully_assigned` under `p` and whose literals are
written with `~` markers, evaluation is the same under any extension of `p`. -/
theorem eval_eq_of_fullyAssigned {cl : List String} {c p : Assignment}
    (hg : ∀ lit ∈ cl, goodLit lit)
    (hFA : clauseFullyAssigned p cl = true)
    (hext : Extends c p) :
    evaluate_clause cl c = evaluate_clause cl p := by
  apply evaluate_clause_congr
  intro lit hl
  have hm : amem p (stripTilde lit) = true := by
    unfold clauseFullyAssigned at hFA
    rw [List.all_eq_true] at hFA
    simpa using hFA lit hl
  rw [hg lit hl]
  exact aget_eq_of_extends_mem hext hm

/-! ### Admissibility of the optimistic bound -/

theorem bound_ge_weight_aux {c p : Assignment}
    (hext : Extends c p) :
    ∀ (l : List (List String × Int)),
      (∀ sc ∈ l, ∀ lit ∈ sc.1, goodLit lit) →
      (∀ sc ∈ l, 0 ≤ sc.2) →
      ∀ (acc₁ acc₂ : Int), acc₁ ≤ acc₂ →
        l.foldl (fun tw sc => if evaluate_clause sc.1 c then tw + sc.2 else tw) acc₁
          ≤ l.foldl (fun bound sc =>
              if sc.1.all (fun lit => amem p (stripTilde lit)) then
                (if evaluate_clause sc.1 p then bound + sc.2 else bound)
              else bound + sc.2) acc₂ := by
  intro l
  induction l with
  | nil => intro _ _ acc₁ acc₂ hacc; simpa using hacc
  | cons sc t ih =>
    intro hg hw acc₁ acc₂ hacc
    simp only [List.foldl_cons]
    apply ih (fun s hs => hg s (by simp [hs])) (fun s hs => hw s (by simp [hs]))
    have hwsc : (0 : Int) ≤ sc.2 := hw sc (by simp)
    by_cases hFA : sc.1.all (fun lit => amem p (stripTilde lit)) = true
    · have heq : evaluate_clause sc.1 c = evaluate_clause sc.1 p :=
        eval_eq_of_fullyAssigned (fun lit hl => hg sc (by simp) lit hl) hFA hext
      rw [if_pos hFA, ← heq]
      by_cases hev : evaluate_clause sc.1 c = true
      · simp only [if_pos hev]
        exact add_le_add_right hacc sc.2
      · simp only [Bool.not_eq_true] at hev
        simp only [hev, Bool.false_eq_true, if_false]
        exact hacc
    · simp only [Bool.not_eq_true] at hFA
      rw [hFA]
      simp only [Bool.false_eq_true, if_false]
      by_cases hev : evaluate_clause sc.1 c = true
      · simp only [if_pos hev]
        exact add_le_add_right hacc sc.2
      · simp only [Bool.not_eq_true] at hev
        simp only [hev, Bool.false_eq_true, if_false]
        exact le_trans hacc (le_add_of_nonneg_right hwsc)

/-- The optimistic bound at a partial assignment never under-estimates the
exact weight of any assignment extending it — provided soft literals are
`~`-marked and soft weights are nonnegative. -/
theorem bound_ge_weight {csp : CSP} {c p : Assignment}
    (hg : ∀ sc ∈ csp.cnf.soft_clauses, ∀ lit ∈ sc.1, goodLit lit)
    (hw : ∀ sc ∈ csp.cnf.soft_clauses, 0 ≤ sc.2)
    (hext : Extends c p) :
    calculate_weight csp.cnf c ≤ optimistic_bound csp p :=
  bound_ge_weight_aux hext csp.cnf.soft_clauses hg hw 0 0 le_rfl

theorem calculate_weight_nonneg {cnf : CNF} {a : Assignment}
    (hw : ∀ sc ∈ cnf.soft_clauses, 0 ≤ sc.2) :
    0 ≤ calculate_weight cnf a := by
  unfold calculate_weight
  have : ∀ (l : List (List String × Int)), (∀ sc ∈ l, 0 ≤ sc.2) →
      ∀ acc : Int, 0 ≤ acc →
        0 ≤ l.foldl (fun tw sc => if evaluate_clause sc.1 a then tw + sc.2 else tw) acc := by
    intro l
    induction l with
    | nil => intro _ acc hacc; simpa using hacc
    | cons sc t ih =>
      intro hws acc hacc
      simp only [List.foldl_cons]
      apply ih (fun s hs => hws s (by simp [hs]))
      have := hws sc (by simp)
      by_cases hev : evaluate_clause sc.1 a = true
      · simp only [if_pos hev]; omega
      · simp only [Bool.not_eq_true] at hev; simp only [hev]; omega
  exact this cnf.soft_clauses hw 0 le_rfl

/-! ### Variable selection -/

theorem foldl_pick_mem {α β : Type} (g : β × Option α → α → β × Option α)
    (hf : ∀ acc x, (g acc x).2 = acc.2 ∨ (g acc x).2 = some x) :
    ∀ (l : List α) (acc : β × Option α) (v : α),
      (l.foldl g acc).2 = some v → acc.2 = some v ∨ v ∈ l := by
  intro l
  induction l with
  | nil => intro acc v h; exact Or.inl h
  | cons x t ih =>
    intro acc v h
    rcases ih (g acc x) v h with h' | h'
    · rcases hf acc x with h2 | h2
      · exact Or.inl (h2 ▸ h')
      · right
        rw [h2] at h'
        simp only [Option.some.injEq] at h'
        simp [h']
    · right; simp [h']

theorem foldl_pick_isSome {α β : Type} (g : β × Option α → α → β × Option α)
    (hf : ∀ acc x, (acc.2).isSome = true → ((g acc x).2).isSome = true) :
    ∀ (l : List α) (acc : β × Option α),
      (acc.2).isSome = true → ((l.foldl g acc).2).isSome = true := by
  intro l
  induction l with
  | nil => intro acc h; exact h
  | cons x t ih => intro acc h; exact ih _ (hf acc x h)

theorem head?_mem {α : Type} {l : List α} {v : α} (h : l.head? = some v) : v ∈ l := by
  cases l with
  | nil => simp at h
  | cons u rest =>
    simp only [List.head?_cons, Option.some.injEq] at h
    simp [h]

theorem legalCount_le_two (csp : CSP) (assigned : Assignment) (v : String) :
    legalCount csp assigned v ≤ 2 := by
  unfold legalCount
  split <;> split <;> simp

theorem mrv_mem {csp : CSP} {assigned : Assignment} {v : String}
    (h : minimum_remaining_value csp assigned = some v) :
    v ∈ unassignedVars csp assigned := by
  unfold minimum_remaining_value at h
  have hstep : ∀ (acc : Nat × Option String) (x : String),
      ((if legalCount csp assigned x < acc.1 then (legalCount csp assigned x, some x) else acc)).2 = acc.2 ∨
      ((if legalCount csp assigned x < acc.1 then (legalCount csp assigned x, some x) else acc)).2 = some x := by
    intro acc x
    split
    · right; rfl
    · left; rfl
  have := foldl_pick_mem _ hstep (unassignedVars csp assigned)
    ((3 : Nat), (none : Option String)) v h
  rcases this with h' | h'
  · simp at h'
  · exact h'

theorem mrv_isSome {csp : CSP} {assigned : Assignment}
    (h : unassignedVars csp assigned ≠ []) :
    (minimum_remaining_value csp assigned).isSome = true := by
  unfold minimum_remaining_value
  cases hu : unassignedVars csp assigned with
  | nil => exact absurd hu h
  | cons u rest =>
    simp only [hu, List.foldl_cons]
    apply foldl_pick_isSome
    · intro acc x hacc
      dsimp only
      split
      · simp
      · exact hacc
    · have h2 := legalCount_le_two csp assigned u
      have h3 : legalCount csp assigned u < 3 := by omega
      simp [h3]

theorem mcv_mem {csp : CSP} {assigned : Assignment} {unassigned : List String} {v : String}
    (h : most_constraining_variable csp assigned unassigned = some v) :
    v ∈ unassigned := by
  unfold most_constraining_variable at h
  have hstep : ∀ (acc : Int × Option String) (x : String),
      ((if (mcvDegree csp assigned x : Int) > acc.1 then ((mcvDegree csp assigned x : Int), some x) else acc)).2 = acc.2 ∨
      ((if (mcvDegree csp assigned x : Int) > acc.1 then ((mcvDegree csp assigned x : Int), some x) else acc)).2 = some x := by
    intro acc x
    split
    · right; rfl
    · left; rfl
  have := foldl_pick_mem _ hstep unassigned ((-1 : Int), (none : Option String)) v h
  rcases this with h' | h'
  · simp at h'
  · exact h'

theorem mcv_isSome {csp : CSP} {assigned : Assignment} {unassigned : List String}
    (h : unassigned ≠ []) :
    (most_constraining_variable csp assigned unassigned).isSome = true := by
  unfold most_constraining_variable
  cases hu : unassigned with
  | nil => exact absurd hu h
  | cons u rest =>
    simp only [List.foldl_cons]
    apply foldl_pick_isSome
    · intro acc x hacc
      dsimp only
      split
      · simp
      · exact hacc
    · have h0 : (0 : Int) ≤ (mcvDegree csp assigned u : Int) := Int.natCast_nonneg _
      have h3 : ((mcvDegree csp assigned u : Int) > (-1 : Int)) := by omega
      simp [h3]

theorem mem_unassignedVars {csp : CSP} {assigned : Assignment} {v : String}
    (h : v ∈ unassignedVars csp assigned) :
    v ∈ csp.vars ∧ amem assigned v = false := by
  rcases List.mem_filter.mp h with ⟨h1, h2⟩
  exact ⟨h1, by simpa using h2⟩

theorem select_some_spec {csp : CSP} {assigned : Assignment} {v : String}
    (h : select_unassigned_variable csp assigned = some v) :
    v ∈ csp.vars ∧ amem assigned v = false := by
  unfold select_unassigned_variable at h
  cases h1 : (if csp.use_mrv then minimum_remaining_value csp assigned else none) with
  | some w =>
    rw [h1] at h
    simp only [Option.some.injEq] at h
    subst h
    by_cases hm : csp.use_mrv
    · rw [if_pos hm] at h1
      exact mem_unassignedVars (mrv_mem h1)
    · rw [if_neg hm] at h1
      exact absurd h1 (by simp)
  | none =>
    rw [h1] at h
    cases h2 : (if csp.use_mcv && !csp.use_mrv then
                  most_constraining_variable csp assigned (unassignedVars csp assigned)
                else none) with
    | some w =>
      rw [h2] at h
      simp only [Option.some.injEq] at h
      subst h
      by_cases hmc : (csp.use_mcv && !csp.use_mrv) = true
      · rw [if_pos hmc] at h2
        exact mem_unassignedVars (mcv_mem h2)
      · rw [if_neg hmc] at h2
        exact absurd h2 (by simp)
    | none =>
      rw [h2] at h
      exact mem_unassignedVars (head?_mem h)

theorem select_isSome {csp : CSP} {assigned : Assignment}
    (h : unassignedVars csp assigned ≠ []) :
    (select_unassigned_variable csp assigned).isSome = true := by
  unfold select_unassigned_variable
  cases h1 : (if csp.use_mrv then minimum_remaining_value csp assigned else none) with
  | some w => simp
  | none =>
    cases h2 : (if csp.use_mcv && !csp.use_mrv then
                  most_constraining_variable csp assigned (unassignedVars csp assigned)
                else none) with
    | some w => simp
    | none =>
      by_cases hm : csp.use_mrv
      · rw [if_pos hm] at h1
        have := mrv_isSome h
        rw [h1] at this
        simp at this
      · by_cases hc : csp.use_mcv
        · have hmc : (csp.use_mcv && !csp.use_mrv) = true := by
            simp [hc, hm]
          rw [if_pos hmc] at h2
          have := @mcv_isSome csp assigned _ h
          rw [h2] at this
          simp at this
        · cases hu : unassignedVars csp assigned with
          | nil => exact absurd hu h
          | cons u rest => simp [hu]

/-! ### Well-formed working assignments -/

/-- Invariant of the working assignment along the search: unique keys, all
of them declared variables. -/
def wfAssigned (vars : List String) (p : Assignment) : Prop :=
  (p.map Prod.fst).Nodup ∧ ∀ k ∈ p.map Prod.fst, k ∈ vars

theorem wfAssigned_nil (vars : List String) : wfAssigned vars [] :=
  ⟨List.nodup_nil, by simp⟩

theorem wfAssigned_aset {vars : List String} {p : Assignment} {v : String} {b : Bool}
    (hwf : wfAssigned vars p) (hv : v ∈ vars) (hm : amem p v = false) :
    wfAssigned vars (aset p v b) := by
  rcases hwf with ⟨hnd, hsub⟩
  have hknotin : v ∉ p.map Prod.fst := by
    rw [← amem_iff_mem_keys]
    simp [hm]
  constructor
  · rw [keys_aset_of_not_mem hm]
    rw [List.nodup_append]
    refine ⟨hnd, List.nodup_singleton v, ?_⟩
    intro k hk hk2
    simp only [List.mem_singleton] at hk2
    exact hknotin (hk2 ▸ hk)
  · intro k hk
    rw [keys_aset_of_not_mem hm] at hk
    rcases List.mem_append.mp hk with hk' | hk'
    · exact hsub k hk'
    · simp only [List.mem_singleton] at hk'
      exact hk' ▸ hv

theorem wfAssigned_length_le {vars : List String} {p : Assignment}
    (hwf : wfAssigned vars p) : p.length ≤ vars.length := by
  rcases hwf with ⟨hnd, hsub⟩
  have hsubf : (p.map Prod.fst).toFinset ⊆ vars.toFinset := by
    intro k hk
    rw [List.mem_toFinset] at hk ⊢
    exact hsub k hk
  have h1 : (p.map Prod.fst).toFinset.card = p.length := by
    rw [List.toFinset_card_of_nodup hnd, List.length_map]
  have h2 := Finset.card_le_card hsubf
  have h3 := List.toFinset_card_le vars
  omega

theorem complete_forall_mem {vars : List String} {p : Assignment}
    (hwf : wfAssigned vars p) (hlen : p.length = vars.length) (hvnd : vars.Nodup) :
    ∀ v ∈ vars, amem p v = true := by
  rcases hwf with ⟨hnd, hsub⟩
  have hsubf : (p.map Prod.fst).toFinset ⊆ vars.toFinset := by
    intro k hk
    rw [List.mem_toFinset] at hk ⊢
    exact hsub k hk
  have h1 : (p.map Prod.fst).toFinset.card = p.length := by
    rw [List.toFinset_card_of_nodup hnd, List.length_map]
  have h2 : vars.toFinset.card = vars.length := List.toFinset_card_of_nodup hvnd
  have heq : (p.map Prod.fst).toFinset = vars.toFinset :=
    Finset.eq_of_subset_of_card_le hsubf (by omega)
  intro v hv
  rw [amem_iff_mem_keys, ← List.mem_toFinset, heq, List.mem_toFinset]
  exact hv

/-! ### Basic properties of `backtrack` -/

theorem backtrack_succ (csp : CSP) (fuel : Nat) (st : SState) :
    backtrack csp (fuel + 1) st =
      if !(unsatisfiedHard csp st.assigned).isEmpty then st
      else if optimistic_bound csp st.assigned ≤ st.best_weight then st
      else if is_complete csp st.assigned then
        (if calculate_weight csp.cnf st.assigned > st.best_weight then
          { st with best_weight := calculate_weight csp.cnf st.assigned,
                    best_solution := some st.assigned }
        else st)
      else
        match select_unassigned_variable csp st.assigned with
        | none => st
        | some v =>
          (if csp.use_lcv then
              [least_constraining_value csp st.assigned v, !least_constraining_value csp st.assigned v]
            else [true, false]).foldl (btVal csp fuel v) st := rfl

theorem valueOrder_shape (csp : CSP) (a : Assignment) (v : String) :
    (if csp.use_lcv then
        [least_constraining_value csp a v, !least_constraining_value csp a v]
      else [true, false])
    = [(if csp.use_lcv then least_constraining_value csp a v else true),
       !(if csp.use_lcv then least_constraining_value csp a v else true)] := by
  by_cases h : csp.use_lcv
  · simp [h]
  · simp [h]

theorem btVal_assigned {csp : CSP} {fuel : Nat} {v : String}
    (ih : ∀ st, (backtrack csp fuel st).assigned = st.assigned)
    {st' : SState} (hm : amem st'.assigned v = false) (b : Bool) :
    (btVal csp fuel v st' b).assigned = st'.assigned := by
  unfold btVal
  split
  · simp only
    rw [ih]
    exact unassign_aset hm
  · rfl

theorem backtrack_assigned (csp : CSP) :
    ∀ (fuel : Nat) (st : SState), (backtrack csp fuel st).assigned = st.assigned := by
  intro fuel
  induction fuel with
  | zero => intro st; rfl
  | succ fuel ih =>
    intro st
    rw [backtrack_succ]
    split
    · rfl
    split
    · rfl
    split
    · split
      · rfl
      · rfl
    · split
      · rfl
      · rename_i v hsel
        have hm := (select_some_spec hsel).2
        rw [valueOrder_shape]
        simp only [List.foldl_cons, List.foldl_nil]
        have e1 := btVal_assigned ih hm
          ((if csp.use_lcv then least_constraining_value csp st.assigned v else true))
        have hm2 : amem (btVal csp fuel v st
            (if csp.use_lcv then least_constraining_value csp st.assigned v else true)).assigned v = false := by
          rw [e1]; exact hm
        have e2 := btVal_assigned ih hm2
          (!(if csp.use_lcv then least_constraining_value csp st.assigned v else true))
        rw [e2, e1]

theorem btVal_bw_mono {csp : CSP} {fuel : Nat} {v : String}
    (ih : ∀ st, st.best_weight ≤ (backtrack csp fuel st).best_weight)
    (st' : SState) (b : Bool) :
    st'.best_weight ≤ (btVal csp fuel v st' b).best_weight := by
  unfold btVal
  split
  · simp only
    exact ih { st' with assigned := aset st'.assigned v b }
  · exact le_rfl

theorem backtrack_bw_mono (csp : CSP) :
    ∀ (fuel : Nat) (st : SState), st.best_weight ≤ (backtrack csp fuel st).best_weight := by
  intro fuel
  induction fuel with
  | zero => intro st; exact le_rfl
  | succ fuel ih =>
    intro st
    rw [backtrack_succ]
    split
    · exact le_rfl
    split
    · exact le_rfl
    split
    · split
      · rename_i hgt
        simp only
        omega
      · exact le_rfl
    · split
      · exact le_rfl
      · rename_i v hsel
        rw [valueOrder_shape]
        simp only [List.foldl_cons, List.foldl_nil]
        exact le_trans (btVal_bw_mono ih st _) (btVal_bw_mono ih _ _)

/-! ### Feasibility facts about extensions -/

/-- An assignment that extends `p` and satisfies every hard clause forces the
`unsatisfied` fully-assigned list at `p` to be empty (good hard literals). -/
theorem unsat_no_extension {csp : CSP} {p c : Assignment}
    (Hh : ∀ cl ∈ csp.cnf.hard_clauses, ∀ lit ∈ cl, goodLit lit)
    (hext : Extends c p)
    (hsat : allHardSat csp.cnf c = true) :
    unsatisfiedHard csp p = [] := by
  cases hu : unsatisfiedHard csp p with
  | nil => rfl
  | cons cl t =>
    exfalso
    have hcl : cl ∈ unsatisfiedHard csp p := by simp [hu]
    unfold unsatisfiedHard fullyAssignedHard at hcl
    rcases List.mem_filter.mp hcl with ⟨hcl1, hclev⟩
    rcases List.mem_filter.mp hcl1 with ⟨hclhard, hclFA⟩
    have heq := eval_eq_of_fullyAssigned (fun lit hl => Hh cl hclhard lit hl) hclFA hext
    unfold allHardSat at hsat
    have hsatcl := List.all_eq_true.mp hsat cl hclhard
    simp only at hsatcl hclev
    rw [heq] at hsatcl
    rw [hsatcl] at hclev
    simp at hclev

/-- If some hard-clause-satisfying assignment `c` extends `p` with `v := β`,
then `is_consistent p v β` holds (no auxiliary constraints registered). -/
theorem consistent_of_extension {csp : CSP} {p c : Assignment} {v : String} {β : Bool}
    (Hh : ∀ cl ∈ csp.cnf.hard_clauses, ∀ lit ∈ cl, goodLit lit)
    (Hc : csp.constraints = [])
    (hm : amem p v = false) (hβ : List.lookup v c = some β)
    (hext : Extends c p) (hsat : allHardSat csp.cnf c = true) :
    is_consistent csp p v β = true := by
  unfold is_consistent
  rw [unsat_no_extension Hh (extends_aset hm hβ hext) hsat, Hc]
  simp

/-! ### The incumbent invariant (soundness) -/

/-- An assignment with unique declared keys covering all declared variables. -/
def wfComplete (vars : List String) (b : Assignment) : Prop :=
  (b.map Prod.fst).Nodup ∧ (∀ k ∈ b.map Prod.fst, k ∈ vars) ∧ b.length = vars.length

/-- Incumbent invariant: either still the initial `(None, -1)` sentinel pair,
or the incumbent is a complete assignment satisfying every hard clause whose
weight is exactly `best_weight`. -/
def InvP (cnf : CNF) (vars : List String) (st : SState) : Prop :=
  (st.best_solution = none ∧ st.best_weight = -1) ∨
  (∃ b, st.best_solution = some b ∧ wfComplete vars b ∧ allHardSat cnf b = true ∧
        calculate_weight cnf b = st.best_weight)

/-- At a complete, prune-surviving state every hard clause is satisfied
(good hard literals over declared variables). -/
theorem record_feasible {csp : CSP} {p : Assignment}
    (Hh : ∀ cl ∈ csp.cnf.hard_clauses, ∀ lit ∈ cl, goodLit lit ∧ stripTilde lit ∈ csp.vars)
    (hvnd : csp.vars.Nodup)
    (hwf : wfAssigned csp.vars p)
    (hlen : p.length = csp.vars.length)
    (hempty : unsatisfiedHard csp p = []) :
    allHardSat csp.cnf p = true := by
  have hall := complete_forall_mem hwf hlen hvnd
  unfold allHardSat
  rw [List.all_eq_true]
  intro cl hcl
  have hFA : clauseFullyAssigned p cl = true := by
    unfold clauseFullyAssigned
    rw [List.all_eq_true]
    intro lit hlit
    have := (Hh cl hcl lit hlit).2
    simpa using hall _ this
  by_contra hev
  simp only [Bool.not_eq_true] at hev
  have h1 : cl ∈ csp.cnf.hard_clauses.filter (fun cl => clauseFullyAssigned p cl) :=
    List.mem_filter.mpr ⟨hcl, hFA⟩
  have h2 : cl ∈ unsatisfiedHard csp p := by
    unfold unsatisfiedHard fullyAssignedHard
    exact List.mem_filter.mpr ⟨h1, by simp [hev]⟩
  rw [hempty] at h2
  exact absurd h2 (List.not_mem_nil cl)

theorem backtrack_sound {csp : CSP}
    (Hh : ∀ cl ∈ csp.cnf.hard_clauses, ∀ lit ∈ cl, goodLit lit ∧ stripTilde lit ∈ csp.vars)
    (hvnd : csp.vars.Nodup) :
    ∀ (fuel : Nat) (st : SState), wfAssigned csp.vars st.assigned →
      InvP csp.cnf csp.vars st → InvP csp.cnf csp.vars (backtrack csp fuel st) := by
  intro fuel
  induction fuel with
  | zero => intro st _ hinv; exact hinv
  | succ fuel ih =>
    intro st hwf hinv
    rw [backtrack_succ]
    by_cases h1 : (!(unsatisfiedHard csp st.assigned).isEmpty) = true
    · rw [if_pos h1]; exact hinv
    rw [if_neg h1]
    by_cases h2 : optimistic_bound csp st.assigned ≤ st.best_weight
    · rw [if_pos h2]; exact hinv
    rw [if_neg h2]
    by_cases h3 : is_complete csp st.assigned = true
    · rw [if_pos h3]
      have hlen : st.assigned.length = csp.vars.length := by
        unfold is_complete at h3
        simpa using h3
      have hempty : unsatisfiedHard csp st.assigned = [] := by
        simp only [Bool.not_eq_true, Bool.not_eq_false'] at h1
        simpa using h1
      by_cases h4 : calculate_weight csp.cnf st.assigned > st.best_weight
      · rw [if_pos h4]
        right
        refine ⟨st.assigned, rfl, ⟨hwf.1, hwf.2, hlen⟩, ?_, rfl⟩
        exact record_feasible Hh hvnd hwf hlen hempty
      · rw [if_neg h4]; exact hinv
    · rw [if_neg h3]
      split
      · exact hinv
      · rename_i v hsel
        rcases select_some_spec hsel with ⟨hv, hm⟩
        rw [valueOrder_shape]
        simp only [List.foldl_cons, List.foldl_nil]
        have hstep : ∀ (st' : SState) (b : Bool), st'.assigned = st.assigned →
            InvP csp.cnf csp.vars st' → InvP csp.cnf csp.vars (btVal csp fuel v st' b) := by
          intro st' b ha hinv'
          unfold btVal
          split
          · simp only
            have hm' : amem st'.assigned v = false := by rw [ha]; exact hm
            have hwf' : wfAssigned csp.vars (aset st'.assigned v b) := by
              rw [ha]
              exact wfAssigned_aset hwf hv hm
            exact ih { st' with assigned := aset st'.assigned v b } hwf' hinv'
          · exact hinv'
        have e1 : (btVal csp fuel v st
            (if csp.use_lcv then least_constraining_value csp st.assigned v else true)).assigned
              = st.assigned :=
          btVal_assigned (backtrack_assigned csp fuel) hm _
        exact hstep _ _ e1 (hstep st _ rfl hinv)

/-! ### No feasible completion is missed (completeness) -/

theorem lookup_eq_of_complete {vars : List String} {p c : Assignment}
    (hwfp : wfAssigned vars p) (hplen : p.length = vars.length) (hvnd : vars.Nodup)
    (hwfc : wfComplete vars c) (hext : Extends c p) :
    ∀ x, List.lookup x c = List.lookup x p := by
  intro x
  cases hx : List.lookup x p with
  | some b => exact hext x b hx
  | none =>
    have hxk : x ∉ p.map Prod.fst := lookup_none_iff.mp hx
    have hxv : x ∉ vars := by
      intro hxv
      have := complete_forall_mem hwfp hplen hvnd x hxv
      rw [amem_iff_mem_keys] at this
      exact hxk this
    have hxc : x ∉ c.map Prod.fst := fun hc => hxv (hwfc.2.1 x hc)
    exact lookup_none_iff.mpr hxc

theorem backtrack_complete {csp : CSP}
    (Hh : ∀ cl ∈ csp.cnf.hard_clauses, ∀ lit ∈ cl, goodLit lit ∧ stripTilde lit ∈ csp.vars)
    (Hs : ∀ sc ∈ csp.cnf.soft_clauses, ∀ lit ∈ sc.1, goodLit lit)
    (Hw : ∀ sc ∈ csp.cnf.soft_clauses, 0 ≤ sc.2)
    (Hc : csp.constraints = [])
    (hvnd : csp.vars.Nodup) :
    ∀ (fuel : Nat) (st : SState), wfAssigned csp.vars st.assigned →
      csp.vars.length - st.assigned.length < fuel →
      ∀ c, wfComplete csp.vars c → allHardSat csp.cnf c = true → Extends c st.assigned →
        calculate_weight csp.cnf c ≤ (backtrack csp fuel st).best_weight := by
  intro fuel
  induction fuel with
  | zero => intro st _ hfuel; omega
  | succ fuel ih =>
    intro st hwf hfuel c hc hsat hext
    have Hh1 : ∀ cl ∈ csp.cnf.hard_clauses, ∀ lit ∈ cl, goodLit lit :=
      fun cl hcl lit hl => (Hh cl hcl lit hl).1
    rw [backtrack_succ]
    by_cases h1 : (!(unsatisfiedHard csp st.assigned).isEmpty) = true
    · exfalso
      rw [unsat_no_extension Hh1 hext hsat] at h1
      simp at h1
    rw [if_neg h1]
    by_cases h2 : optimistic_bound csp st.assigned ≤ st.best_weight
    · rw [if_pos h2]
      exact le_trans (bound_ge_weight Hs Hw hext) h2
    rw [if_neg h2]
    by_cases h3 : is_complete csp st.assigned = true
    · rw [if_pos h3]
      have hplen : st.assigned.length = csp.vars.length := by
        unfold is_complete at h3
        simpa using h3
      have hleq := lookup_eq_of_complete hwf hplen hvnd hc hext
      have hwc : calculate_weight csp.cnf c = calculate_weight csp.cnf st.assigned :=
        calculate_weight_ext hleq
      by_cases h4 : calculate_weight csp.cnf st.assigned > st.best_weight
      · rw [if_pos h4]
        simp only
        omega
      · rw [if_neg h4]
        omega
    · rw [if_neg h3]
      have hlt : st.assigned.length < csp.vars.length := by
        have hle := wfAssigned_length_le hwf
        have hne : st.assigned.length ≠ csp.vars.length := by
          intro he
          unfold is_complete at h3
          simp [he] at h3
        omega
      have hune : unassignedVars csp st.assigned ≠ [] := by
        intro hempty
        have hallm : ∀ v ∈ csp.vars, amem st.assigned v = true := by
          intro v hv
          by_contra hfalse
          have hmem : v ∈ unassignedVars csp st.assigned := by
            apply List.mem_filter.mpr
            refine ⟨hv, ?_⟩
            simp only [Bool.not_eq_true] at hfalse
            simp [hfalse]
          rw [hempty] at hmem
          exact absurd hmem (List.not_mem_nil v)
        have hsub : ∀ v ∈ csp.vars, v ∈ st.assigned.map Prod.fst :=
          fun v hv => amem_iff_mem_keys.mp (hallm v hv)
        have hsubf : csp.vars.toFinset ⊆ (st.assigned.map Prod.fst).toFinset := by
          intro k hk
          rw [List.mem_toFinset] at hk ⊢
          exact hsub k hk
        have hc1 : csp.vars.toFinset.card = csp.vars.length := List.toFinset_card_of_nodup hvnd
        have hc2 : (st.assigned.map Prod.fst).toFinset.card = st.assigned.length := by
          rw [List.toFinset_card_of_nodup hwf.1, List.length_map]
        have := Finset.card_le_card hsubf
        omega
      have hselS := select_isSome hune
      cases hselv : select_unassigned_variable csp st.assigned with
      | none =>
        rw [hselv] at hselS
        simp at hselS
      | some v =>
        simp only [hselv]
        rcases select_some_spec hselv with ⟨hv, hm⟩
        rw [valueOrder_shape]
        simp only [List.foldl_cons, List.foldl_nil]
        have hβex : ∃ β, List.lookup v c = some β := by
          have := complete_forall_mem ⟨hc.1, hc.2.1⟩ hc.2.2 hvnd v hv
          unfold amem at this
          cases hlv : List.lookup v c with
          | none => rw [hlv] at this; simp at this
          | some β => exact ⟨β, rfl⟩
        rcases hβex with ⟨β, hβ⟩
        have hstep : ∀ (st' : SState), st'.assigned = st.assigned →
            calculate_weight csp.cnf c ≤ (btVal csp fuel v st' β).best_weight := by
          intro st' ha
          have hm' : amem st'.assigned v = false := by rw [ha]; exact hm
          have hcons : is_consistent csp st'.assigned v β = true := by
            rw [ha]
            exact consistent_of_extension Hh1 Hc hm hβ hext hsat
          unfold btVal
          rw [if_pos hcons]
          simp only
          have hwf2 : wfAssigned csp.vars (aset st'.assigned v β) := by
            rw [ha]
            exact wfAssigned_aset hwf hv hm
          have hfuel2 : csp.vars.length - (aset st'.assigned v β).length < fuel := by
            rw [aset_of_not_mem hm', List.length_append, ha]
            simp only [List.length_singleton]
            omega
          have hext2 : Extends c (aset st'.assigned v β) := by
            rw [ha]
            exact extends_aset hm hβ hext
          exact ih { st' with assigned := aset st'.assigned v β } hwf2 hfuel2 c hc hsat hext2
        have hmono : ∀ (st' : SState) (b : Bool),
            st'.best_weight ≤ (btVal csp fuel v st' b).best_weight :=
          btVal_bw_mono (backtrack_bw_mono csp fuel)
        have e1 : (btVal csp fuel v st
            (if csp.use_lcv then least_constraining_value csp st.assigned v else true)).assigned
              = st.assigned :=
          btVal_assigned (backtrack_assigned csp fuel) hm _
        by_cases hβ1 : β = (if csp.use_lcv then least_constraining_value csp st.assigned v else true)
        · rw [← hβ1]
          exact le_trans (hstep st rfl) (hmono _ _)
        · have hβ2 : β = !(if csp.use_lcv then least_constraining_value csp st.assigned v else true) := by
            cases β
            · cases h : (if csp.use_lcv then least_constraining_value csp st.assigned v else true)
              · rw [h] at hβ1; simp at hβ1
              · simp
            · cases h : (if csp.use_lcv then least_constraining_value csp st.assigned v else true)
              · simp
              · rw [h] at hβ1; simp at hβ1
          rw [← hβ2]
          exact hstep _ e1

/-! ### Spec-side brute force (for the optimality claim) -/

/-- Modelled from the spec: the brute-force enumeration of all complete
assignments over a variable list, for comparison with `solve()`. -/
def specCompletions : List String → List Assignment
  | [] => [[]]
  | v :: rest => (specCompletions rest).flatMap (fun a => [(v, false) :: a, (v, true) :: a])

/-- Modelled from the spec: the complete assignments satisfying every hard
clause. -/
def specFeasible (cnf : CNF) : List Assignment :=
  (specCompletions (realVars cnf)).filter (fun a => allHardSat cnf a)

/-- Maximum of a list of integers (`none` on the empty list). -/
def listMaxInt : List Int → Option Int
  | [] => none
  | x :: xs => some (xs.foldl max x)

/-- Modelled from the spec: the maximum of `totalWeight` over all
hard-clause-satisfying complete assignments. -/
def specBest (cnf : CNF) : Option Int :=
  listMaxInt ((specFeasible cnf).map (fun a => calculate_weight cnf a))

theorem le_foldl_max_init : ∀ (xs : List Int) (x : Int), x ≤ xs.foldl max x := by
  intro xs
  induction xs with
  | nil => intro x; exact le_rfl
  | cons y t ih => intro x; exact le_trans (le_max_left x y) (ih (max x y))

theorem le_foldl_max_of_mem : ∀ (xs : List Int) (x y : Int), y ∈ xs → y ≤ xs.foldl max x := by
  intro xs
  induction xs with
  | nil => intro x y hy; simp at hy
  | cons z t ih =>
    intro x y hy
    rcases List.mem_cons.mp hy with hy | hy
    · subst hy
      exact le_trans (le_max_right x y) (le_foldl_max_init t (max x y))
    · exact ih (max x z) y hy

theorem foldl_max_mem : ∀ (xs : List Int) (x : Int), xs.foldl max x = x ∨ xs.foldl max x ∈ xs := by
  intro xs
  induction xs with
  | nil => intro x; left; rfl
  | cons z t ih =>
    intro x
    simp only [List.foldl_cons]
    rcases ih (max x z) with h | h
    · rcases max_cases x z with ⟨hm, _⟩ | ⟨hm, _⟩
      · left; rw [h, hm]
      · right; rw [h, hm]; simp
    · right; simp [h]

theorem listMaxInt_spec {l : List Int} {m : Int} (h : listMaxInt l = some m) :
    m ∈ l ∧ ∀ y ∈ l, y ≤ m := by
  cases l with
  | nil => simp [listMaxInt] at h
  | cons x xs =>
    unfold listMaxInt at h
    simp only [Option.some.injEq] at h
    subst h
    constructor
    · rcases foldl_max_mem xs x with h | h
      · rw [h]; simp
      · simp [h]
    · intro y hy
      rcases List.mem_cons.mp hy with hy | hy
      · subst hy; exact le_foldl_max_init xs y
      · exact le_foldl_max_of_mem xs x y hy

theorem listMaxInt_isSome {l : List Int} (h : l ≠ []) : (listMaxInt l).isSome = true := by
  cases l with
  | nil => exact absurd rfl h
  | cons x xs => simp [listMaxInt]

theorem specCompletions_keys : ∀ {vs : List String} {c : Assignment},
    c ∈ specCompletions vs → c.map Prod.fst = vs := by
  intro vs
  induction vs with
  | nil =>
    intro c h
    simp only [specCompletions, List.mem_singleton] at h
    simp [h]
  | cons v rest ih =>
    intro c h
    simp only [specCompletions, List.mem_flatMap] at h
    rcases h with ⟨a, ha, hc⟩
    simp only [List.mem_cons, List.mem_singleton, List.not_mem_nil, or_false] at hc
    rcases hc with hc | hc
    · subst hc; simp [ih ha]
    · subst hc; simp [ih ha]

theorem wfComplete_of_specCompletion {vs : List String} {c : Assignment}
    (hvnd : vs.Nodup) (h : c ∈ specCompletions vs) : wfComplete vs c := by
  have hk := specCompletions_keys h
  refine ⟨hk ▸ hvnd, ?_, ?_⟩
  · intro k hkk
    rw [hk] at hkk
    exact hkk
  · have hl : c.length = (c.map Prod.fst).length := (List.length_map c Prod.fst).symm
    rw [hl, hk]

/-- The canonical representative of an assignment over the variable order. -/
def canonOf (vs : List String) (b : Assignment) : Assignment :=
  vs.map (fun v => (v, aget b v))

theorem canonOf_mem (vs : List String) (b : Assignment) :
    canonOf vs b ∈ specCompletions vs := by
  induction vs with
  | nil => simp [specCompletions, canonOf]
  | cons v rest ih =>
    simp only [specCompletions, canonOf, List.map_cons, List.mem_flatMap]
    refine ⟨canonOf rest b, ih, ?_⟩
    cases h : aget b v
    · simp [canonOf, h]
    · simp [canonOf, h]

theorem canonOf_lookup_mem {vs : List String} {b : Assignment} {x : String} (hx : x ∈ vs) :
    List.lookup x (canonOf vs b) = some (aget b x) := by
  induction vs with
  | nil => simp at hx
  | cons v rest ih =>
    simp only [canonOf, List.map_cons, List.lookup]
    cases hxy : x == v
    · simp only [beq_eq_false_iff_ne, ne_eq] at hxy
      rcases List.mem_cons.mp hx with h | h
      · exact absurd h hxy
      · exact ih h
    · simp only [beq_iff_eq] at hxy
      subst hxy
      rfl

theorem canonOf_lookup_not_mem {vs : List String} {b : Assignment} {x : String} (hx : x ∉ vs) :
    List.lookup x (canonOf vs b) = none := by
  induction vs with
  | nil => rfl
  | cons v rest ih =>
    simp only [canonOf, List.map_cons, List.lookup]
    cases hxy : x == v
    · exact ih (fun h => hx (List.mem_cons.mpr (Or.inr h)))
    · simp only [beq_iff_eq] at hxy
      exact absurd (hxy ▸ List.mem_cons_self x rest) hx

theorem canonOf_lookup_eq {vs : List String} {b : Assignment}
    (hvnd : vs.Nodup) (hwfc : wfComplete vs b) :
    ∀ x, List.lookup x (canonOf vs b) = List.lookup x b := by
  intro x
  by_cases hx : x ∈ vs
  · rw [canonOf_lookup_mem hx]
    have hm : amem b x = true := complete_forall_mem ⟨hwfc.1, hwfc.2.1⟩ hwfc.2.2 hvnd x hx
    unfold amem at hm
    cases hl : List.lookup x b with
    | none => rw [hl] at hm; simp at hm
    | some w =>
      unfold aget
      rw [hl]
      rfl
  · rw [canonOf_lookup_not_mem hx]
    have hxc : x ∉ b.map Prod.fst := fun hc => hx (hwfc.2.1 x hc)
    exact (lookup_none_iff.mpr hxc).symm

/-- `CSP.init` succeeds exactly on the records it builds. -/
theorem init_ok_elim {cnf : CNF} {mcv mrv lcv : Bool} {csp : CSP}
    (h : CSP.init cnf mcv mrv lcv = Except.ok csp) :
    csp = { cnf := cnf, use_mcv := mcv, use_mrv := mrv, use_lcv := lcv,
            vars := realVars cnf, constraints := [] } := by
  unfold CSP.init at h
  split at h
  · cases h
  · cases h
    rfl

/-! ### Concrete instances used by witnesses and counterexamples -/

/-- The spec §8 worked example: variables a, b; hard `[a, b]`;
soft `[a, 3]`, `[~b, 2]`. -/
def cnfExample : CNF := ⟨["a", "b"], [["a", "b"]], [(["a"], 3), (["~b"], 2)]⟩

def cspExample : CSP :=
  { cnf := cnfExample, use_mcv := false, use_mrv := true, use_lcv := true,
    vars := realVars cnfExample, constraints := [] }

/-- A formula with a negative soft weight. -/
def cnfNegWeight : CNF := ⟨["x"], [], [(["x"], -5)]⟩

def cspNegWeight : CSP :=
  { cnf := cnfNegWeight, use_mcv := false, use_mrv := true, use_lcv := true,
    vars := realVars cnfNegWeight, constraints := [] }

/-- A hard clause negated with `-` and a weighted soft clause. -/
def cnfDashAll : CNF := ⟨["x"], [["-x"]], [(["x"], 5)]⟩

def cspDashAll : CSP :=
  { cnf := cnfDashAll, use_mcv := false, use_mrv := true, use_lcv := true,
    vars := realVars cnfDashAll, constraints := [] }

/-- A satisfiable formula whose only hard clause is negated with `-`. -/
def cnfDashHard : CNF := ⟨["x"], [["-x"]], []⟩

def cspDashHard : CSP :=
  { cnf := cnfDashHard, use_mcv := false, use_mrv := true, use_lcv := true,
    vars := realVars cnfDashHard, constraints := [] }

/-- The spec §8 infeasible example written with the `-` marker: `[x]`, `[-x]`. -/
def cnfContra : CNF := ⟨["x"], [["x"], ["-x"]], []⟩

def cspContra : CSP :=
  { cnf := cnfContra, use_mcv := false, use_mrv := true, use_lcv := true,
    vars := realVars cnfContra, constraints := [] }

/-- The same contradiction written with the `~` marker: `[x]`, `[~x]`. -/
def cnfTildeContra : CNF := ⟨["x"], [["x"], ["~x"]], []⟩

def cspTildeContra : CSP :=
  { cnf := cnfTildeContra, use_mcv := false, use_mrv := true, use_lcv := true,
    vars := realVars cnfTildeContra, constraints := [] }

/-- A trivial one-variable formula with no clauses. -/
def cnfEmptyX : CNF := ⟨["x"], [], []⟩

def cspEmptyXbase : CSP :=
  { cnf := cnfEmptyX, use_mcv := false, use_mrv := true, use_lcv := true,
    vars := realVars cnfEmptyX, constraints := [] }

/-- The solver of `cnfEmptyX` with one auxiliary constraint requiring `x`. -/
def cspConstraintX : CSP := CSP.add_constraint cspEmptyXbase (fun a => aget a "x") ["x"]

/-! ### The claims -/

/-- C1 (amended): for every Formula with at most 12 variables whose clause
literals read the same variable the solver's `strip('~')` test produces (i.e.
negation written with `~` markers), whose hard-clause variables are declared,
and whose soft-clause weights are nonnegative, `solve()` returns the maximum
of `calculate_weight` over all hard-clause-satisfying complete assignments,
and the returned assignment attains that weight (when such an assignment
exists). -/
theorem c1_solve_optimal (cnf : CNF) (mcv mrv lcv : Bool) (csp : CSP)
    (hinit : CSP.init cnf mcv mrv lcv = Except.ok csp)
    (_hnv : (realVars cnf).length ≤ 12)
    (Hh : ∀ cl ∈ cnf.hard_clauses, ∀ lit ∈ cl, goodLit lit ∧ stripTilde lit ∈ realVars cnf)
    (Hs : ∀ sc ∈ cnf.soft_clauses, ∀ lit ∈ sc.1, goodLit lit)
    (Hw : ∀ sc ∈ cnf.soft_clauses, 0 ≤ sc.2)
    (hfeas : specFeasible cnf ≠ []) :
    ∃ b m, specBest cnf = some m ∧ CSP.solve csp = (some b, m) ∧
      calculate_weight cnf b = m := by
  have hcnf : csp.cnf = cnf := by rw [init_ok_elim hinit]
  have hvars : csp.vars = realVars cnf := by rw [init_ok_elim hinit]
  have hcons : csp.constraints = [] := by rw [init_ok_elim hinit]
  have hvnd : (realVars cnf).Nodup := List.nodup_dedup _
  have hvnd' : csp.vars.Nodup := by rw [hvars]; exact hvnd
  have Hh' : ∀ cl ∈ csp.cnf.hard_clauses, ∀ lit ∈ cl, goodLit lit ∧ stripTilde lit ∈ csp.vars := by
    rw [hcnf, hvars]; exact Hh
  have Hs' : ∀ sc ∈ csp.cnf.soft_clauses, ∀ lit ∈ sc.1, goodLit lit := by
    rw [hcnf]; exact Hs
  have Hw' : ∀ sc ∈ csp.cnf.soft_clauses, 0 ≤ sc.2 := by
    rw [hcnf]; exact Hw
  have hsound : InvP csp.cnf csp.vars (solveState csp) :=
    backtrack_sound Hh' hvnd' (csp.vars.length + 1)
      { assigned := [], best_solution := none, best_weight := -1 }
      (wfAssigned_nil _) (Or.inl ⟨rfl, rfl⟩)
  have hcompl : ∀ c, wfComplete csp.vars c → allHardSat csp.cnf c = true →
      calculate_weight csp.cnf c ≤ (solveState csp).best_weight := by
    intro c hc hsat
    exact backtrack_complete Hh' Hs' Hw' hcons hvnd' (csp.vars.length + 1)
      { assigned := [], best_solution := none, best_weight := -1 }
      (wfAssigned_nil _) (by simp) c hc hsat (extends_nil c)
  rw [hcnf, hvars] at hsound hcompl
  obtain ⟨m, hm⟩ : ∃ m, specBest cnf = some m := by
    have hne : (specFeasible cnf).map (fun a => calculate_weight cnf a) ≠ [] := by
      cases hsf : specFeasible cnf with
      | nil => exact absurd hsf hfeas
      | cons a t => simp [hsf]
    have := listMaxInt_isSome hne
    cases h : specBest cnf with
    | none => unfold specBest at h; rw [h] at this; simp at this
    | some m => exact ⟨m, rfl⟩
  rcases listMaxInt_spec hm with ⟨hmmem, hmub⟩
  rcases List.mem_map.mp hmmem with ⟨c0, hc0mem, hc0w⟩
  rcases List.mem_filter.mp hc0mem with ⟨hc0comp, hc0sat⟩
  have hc0wf : wfComplete (realVars cnf) c0 := wfComplete_of_specCompletion hvnd hc0comp
  have hlow : m ≤ (solveState csp).best_weight := by
    rw [← hc0w]
    exact hcompl c0 hc0wf hc0sat
  have hm0 : (0 : Int) ≤ m := hc0w ▸ calculate_weight_nonneg Hw
  rcases hsound with ⟨hbs, hbw⟩ | ⟨b, hbs, hbwf, hbsat, hbw⟩
  · exfalso
    rw [hbw] at hlow
    omega
  · have hcanon_lookup := canonOf_lookup_eq hvnd hbwf
    have hcanon_sat : allHardSat cnf (canonOf (realVars cnf) b) = true := by
      rw [allHardSat_ext hcanon_lookup]
      exact hbsat
    have hcanon_w : calculate_weight cnf (canonOf (realVars cnf) b) = calculate_weight cnf b :=
      calculate_weight_ext hcanon_lookup
    have hcanon_mem : canonOf (realVars cnf) b ∈ specFeasible cnf :=
      List.mem_filter.mpr ⟨canonOf_mem _ _, hcanon_sat⟩
    have hhigh : calculate_weight cnf b ≤ m := by
      rw [← hcanon_w]
      exact hmub _ (List.mem_map.mpr ⟨_, hcanon_mem, rfl⟩)
    have hbweq : (solveState csp).best_weight = m := by omega
    refine ⟨b, m, hm, ?_, ?_⟩
    · unfold CSP.solve
      rw [hbs, hbweq]
    · omega

/-- C2 (amended): for every Formula with `~`-marked literals, declared
hard-clause variables and nonnegative soft weights whose hard clauses are
jointly satisfiable by some complete assignment, `solve()` returns a complete
assignment under which every hard clause is satisfied. -/
theorem c2_solve_hard_satisfying (cnf : CNF) (mcv mrv lcv : Bool) (csp : CSP)
    (hinit : CSP.init cnf mcv mrv lcv = Except.ok csp)
    (Hh : ∀ cl ∈ cnf.hard_clauses, ∀ lit ∈ cl, goodLit lit ∧ stripTilde lit ∈ realVars cnf)
    (Hs : ∀ sc ∈ cnf.soft_clauses, ∀ lit ∈ sc.1, goodLit lit)
    (Hw : ∀ sc ∈ cnf.soft_clauses, 0 ≤ sc.2)
    (hfeas : specFeasible cnf ≠ []) :
    ∃ b w, CSP.solve csp = (some b, w) ∧ allHardSat cnf b = true ∧
      ∀ v ∈ realVars cnf, amem b v = true := by
  have hcnf : csp.cnf = cnf := by rw [init_ok_elim hinit]
  have hvars : csp.vars = realVars cnf := by rw [init_ok_elim hinit]
  have hcons : csp.constraints = [] := by rw [init_ok_elim hinit]
  have hvnd : (realVars cnf).Nodup := List.nodup_dedup _
  have hvnd' : csp.vars.Nodup := by rw [hvars]; exact hvnd
  have Hh' : ∀ cl ∈ csp.cnf.hard_clauses, ∀ lit ∈ cl, goodLit lit ∧ stripTilde lit ∈ csp.vars := by
    rw [hcnf, hvars]; exact Hh
  have Hs' : ∀ sc ∈ csp.cnf.soft_clauses, ∀ lit ∈ sc.1, goodLit lit := by
    rw [hcnf]; exact Hs
  have Hw' : ∀ sc ∈ csp.cnf.soft_clauses, 0 ≤ sc.2 := by
    rw [hcnf]; exact Hw
  have hsound : InvP csp.cnf csp.vars (solveState csp) :=
    backtrack_sound Hh' hvnd' (csp.vars.length + 1)
      { assigned := [], best_solution := none, best_weight := -1 }
      (wfAssigned_nil _) (Or.inl ⟨rfl, rfl⟩)
  have hcompl : ∀ c, wfComplete csp.vars c → allHardSat csp.cnf c = true →
      calculate_weight csp.cnf c ≤ (solveState csp).best_weight := by
    intro c hc hsat
    exact backtrack_complete Hh' Hs' Hw' hcons hvnd' (csp.vars.length + 1)
      { assigned := [], best_solution := none, best_weight := -1 }
      (wfAssigned_nil _) (by simp) c hc hsat (extends_nil c)
  rw [hcnf, hvars] at hsound hcompl
  obtain ⟨c0, hc0mem⟩ : ∃ c0, c0 ∈ specFeasible cnf := by
    cases hsf : specFeasible cnf with
    | nil => exact absurd hsf hfeas
    | cons a t => exact ⟨a, by simp [hsf]⟩
  rcases List.mem_filter.mp hc0mem with ⟨hc0comp, hc0sat⟩
  have hc0wf : wfComplete (realVars cnf) c0 := wfComplete_of_specCompletion hvnd hc0comp
  have hlow : calculate_weight cnf c0 ≤ (solveState csp).best_weight :=
    hcompl c0 hc0wf hc0sat
  have hm0 : (0 : Int) ≤ calculate_weight cnf c0 := calculate_weight_nonneg Hw
  rcases hsound with ⟨hbs, hbw⟩ | ⟨b, hbs, hbwf, hbsat, hbw⟩
  · exfalso
    rw [hbw] at hlow
    omega
  · refine ⟨b, (solveState csp).best_weight, ?_, hbsat, ?_⟩
    · unfold CSP.solve
      rw [hbs]
    · exact complete_forall_mem ⟨hbwf.1, hbwf.2.1⟩ hbwf.2.2 hvnd

/-- C3 (amended): for every Formula whose hard-clause literals are `~`-marked
with declared variables, if no complete assignment satisfies all hard clauses
then `solve()` returns `(none, -1)`, the initial best-weight sentinel. -/
theorem c3_solve_infeasible (cnf : CNF) (mcv mrv lcv : Bool) (csp : CSP)
    (hinit : CSP.init cnf mcv mrv lcv = Except.ok csp)
    (Hh : ∀ cl ∈ cnf.hard_clauses, ∀ lit ∈ cl, goodLit lit ∧ stripTilde lit ∈ realVars cnf)
    (hinfeas : specFeasible cnf = []) :
    CSP.solve csp = (none, -1) := by
  have hcnf : csp.cnf = cnf := by rw [init_ok_elim hinit]
  have hvars : csp.vars = realVars cnf := by rw [init_ok_elim hinit]
  have hvnd : (realVars cnf).Nodup := List.nodup_dedup _
  have hvnd' : csp.vars.Nodup := by rw [hvars]; exact hvnd
  have Hh' : ∀ cl ∈ csp.cnf.hard_clauses, ∀ lit ∈ cl, goodLit lit ∧ stripTilde lit ∈ csp.vars := by
    rw [hcnf, hvars]; exact Hh
  have hsound : InvP csp.cnf csp.vars (solveState csp) :=
    backtrack_sound Hh' hvnd' (csp.vars.length + 1)
      { assigned := [], best_solution := none, best_weight := -1 }
      (wfAssigned_nil _) (Or.inl ⟨rfl, rfl⟩)
  rw [hcnf, hvars] at hsound
  rcases hsound with ⟨hbs, hbw⟩ | ⟨b, hbs, hbwf, hbsat, hbw⟩
  · unfold CSP.solve
    rw [hbs, hbw]
  · exfalso
    have hcanon_lookup := canonOf_lookup_eq hvnd hbwf
    have hcanon_sat : allHardSat cnf (canonOf (realVars cnf) b) = true := by
      rw [allHardSat_ext hcanon_lookup]
      exact hbsat
    have hcanon_mem : canonOf (realVars cnf) b ∈ specFeasible cnf :=
      List.mem_filter.mpr ⟨canonOf_mem _ _, hcanon_sat⟩
    rw [hinfeas] at hcanon_mem
    exact absurd hcanon_mem (List.not_mem_nil _)

/-- C1 witness: the spec §8 example instantiates the amended optimality
theorem (its brute-force maximum is 5, attained at a=true, b=false). -/
theorem c1_solve_optimal_witness :
    ∃ b m, specBest cnfExample = some m ∧ CSP.solve cspExample = (some b, m) ∧
      calculate_weight cnfExample b = m :=
  c1_solve_optimal cnfExample false true true cspExample rfl (by decide)
    (by decide) (by decide) (by decide) (by decide)

/-- C1 counterexample: as stated over every Formula the claim fails.  With a
negative soft weight the bound prunes the root and `solve()` returns the
sentinel instead of the optimum 0; with a `-`-negated hard clause `solve()`
returns weight 5 although the true optimum is 0. -/
theorem c1_counterexample :
    (specFeasible cnfNegWeight ≠ [] ∧ specBest cnfNegWeight = some 0 ∧
      CSP.init cnfNegWeight false true true = Except.ok cspNegWeight ∧
      CSP.solve cspNegWeight = (none, -1)) ∧
    (specFeasible cnfDashAll ≠ [] ∧ specBest cnfDashAll = some 0 ∧
      CSP.init cnfDashAll false true true = Except.ok cspDashAll ∧
      CSP.solve cspDashAll = (some [("x", true)], 5)) :=
  ⟨⟨by decide, by decide, rfl, by decide⟩, ⟨by decide, by decide, rfl, by decide⟩⟩

/-- C2 witness: the spec §8 example instantiates the amended exhaustiveness
theorem. -/
theorem c2_solve_hard_satisfying_witness :
    ∃ b w, CSP.solve cspExample = (some b, w) ∧ allHardSat cnfExample b = true ∧
      ∀ v ∈ realVars cnfExample, amem b v = true :=
  c2_solve_hard_satisfying cnfExample false true true cspExample rfl (by decide)
    (by decide) (by decide) (by decide)

/-- C2 counterexample: hard clause `[-x]` is satisfiable (by x=false), yet
`solve()` returns the assignment x=true, under which that hard clause is NOT
satisfied: the claim fails for the `-` negation marker because the solver’s
fully-assigned test strips only `~`. -/
theorem c2_counterexample :
    CSP.init cnfDashHard false true true = Except.ok cspDashHard ∧
    allHardSat cnfDashHard [("x", false)] = true ∧
    CSP.solve cspDashHard = (some [("x", true)], 0) ∧
    allHardSat cnfDashHard [("x", true)] = false :=
  ⟨rfl, by decide, by decide, by decide⟩

/-- C3 witness: the contradiction `[x]`, `[~x]` (written with the `~` marker)
makes `solve()` return `(none, -1)`. -/
theorem c3_solve_infeasible_witness :
    CSP.solve cspTildeContra = (none, -1) :=
  c3_solve_infeasible cnfTildeContra false true true cspTildeContra rfl
    (by decide) (by decide)

/-- C3 counterexample: with the spec's own `[x]`, `[-x]` example (the `-`
marker), no complete assignment satisfies both hard clauses, yet `solve()`
returns `(some (x=true), 0)`, not `(none, -1)`. -/
theorem c3_counterexample :
    CSP.init cnfContra false true true = Except.ok cspContra ∧
    specFeasible cnfContra = [] ∧
    CSP.solve cspContra = (some [("x", true)], 0) :=
  ⟨rfl, by decide, by decide⟩

/-- C4 (amended): for a Formula whose soft-clause literals are `~`-marked and
whose soft weights are nonnegative, `optimistic_bound` at any partial
assignment is at least `calculate_weight` of any assignment agreeing with it
on every variable it assigns. -/
theorem c4_bound_admissible (csp : CSP) (p c : Assignment)
    (Hs : ∀ sc ∈ csp.cnf.soft_clauses, ∀ lit ∈ sc.1, goodLit lit)
    (Hw : ∀ sc ∈ csp.cnf.soft_clauses, 0 ≤ sc.2)
    (hext : Extends c p) :
    calculate_weight csp.cnf c ≤ optimistic_bound csp p :=
  bound_ge_weight Hs Hw hext

/-- C4 witness: the spec §8 example at the empty partial assignment and the
completion a=true, b=false. -/
theorem c4_bound_admissible_witness :
    calculate_weight cnfExample [("a", true), ("b", false)] ≤ optimistic_bound cspExample [] :=
  c4_bound_admissible cspExample [] [("a", true), ("b", false)]
    (by decide) (by decide) (extends_nil _)

/-- C4 counterexample: with the negative soft weight `[x, -5]` the bound at
the empty assignment is -5, strictly below the weight 0 of the complete
extension x=false — the bound under-estimates. -/
theorem c4_counterexample :
    Extends [("x", false)] [] ∧
    ((realVars cnfNegWeight).all (fun v => amem [("x", false)] v) = true) ∧
    optimistic_bound cspNegWeight [] < calculate_weight cnfNegWeight [("x", false)] :=
  ⟨extends_nil _, by decide, by decide⟩

/-- C5: a clause consisting of a single negated literal (any mixture of
leading `-`, `~`, `¬` markers) over a variable absent from the assignment
evaluates to true; `evaluate_negation` strips all leading markers and returns
the complement of the variable's default-false value. -/
theorem c5_negation_default (lit : String) (a : Assignment)
    (h1 : isNegLit lit = true)
    (h2 : List.lookup (lstripMarkers lit) a = none) :
    evaluate_clause [lit] a = true ∧
    evaluate_negation lit a = !(aget a (lstripMarkers lit)) := by
  constructor
  · unfold evaluate_clause
    simp only [List.any_cons, List.any_nil, Bool.or_false, h1, if_true]
    unfold evaluate_negation aget
    rw [h2]
    rfl
  · rfl

/-- C5 witness: the literal `-~¬x` with an assignment not mentioning `x`. -/
theorem c5_negation_default_witness :
    evaluate_clause ["-~¬x"] [("y", true)] = true ∧
    evaluate_negation "-~¬x" [("y", true)] = !(aget [("y", true)] (lstripMarkers "-~¬x")) :=
  c5_negation_default "-~¬x" [("y", true)] (by decide) (by decide)

/-- C6: constructing a Solver raises the configuration error exactly when
both MCV and MRV are requested — before any search work, and this is the only
exception-raising condition. -/
theorem c6_heuristic_exclusivity (cnf : CNF) (mcv mrv lcv : Bool) :
    (CSP.init cnf mcv mrv lcv).isOk = !(mcv && mrv) := by
  unfold CSP.init
  cases h : (mcv && mrv)
  · simp [h, Except.isOk, Except.toBool]
  · simp [h, Except.isOk, Except.toBool]

/-- C7: evidence of the divergence.  The solver over variables {x} carries
one auxiliary constraint (predicate `a ↦ a.get x (default false)`, scope
`[x]`).  Under the scratch assignment `{x := false}` the constraint's full
scope is assigned and the predicate evaluates to false, yet
`is_consistent("x", false)` returns true, because the source evaluates
constraints on `self.assigned_variables` (here empty) instead of the scratch
copy. -/
theorem c7_constraint_checked_on_stale_assignment :
    is_consistent cspConstraintX [] "x" false = true ∧
    (∀ c ∈ cspConstraintX.constraints,
        c.2.all (fun v => amem (aset ([] : Assignment) "x" false) v) = true ∧
        c.1 (aset ([] : Assignment) "x" false) = false) := by
  constructor
  · decide
  · intro c hc
    have hco : c = ((fun a => aget a "x"), ["x"]) := by
      simpa [cspConstraintX, cspEmptyXbase, CSP.add_constraint] using hc
    subst hco
    exact ⟨by decide, by decide⟩

/-- C8: after any call to `solve()` returns, the solver object's working
assignment `assigned_variables` is empty: every variable assigned inside a
search frame is unassigned on every exit path. -/
theorem c8_assignment_empty_after_solve (s : CSPObj) :
    (CSPObj.solve s).1.assigned_variables = [] := by
  show (solveState s.csp).assigned = []
  unfold solveState
  rw [backtrack_assigned]

/-- C9: `least_constraining_value` returns the boolean whose choice makes no
more hard clauses become fully assigned and violated than its complement
does, and returns true when the two violation counts are tied. -/
theorem c9_lcv_minimizes (csp : CSP) (a : Assignment) (v : String) :
    lcvViolations csp a v (least_constraining_value csp a v)
      ≤ lcvViolations csp a v (!(least_constraining_value csp a v)) ∧
    (lcvViolations csp a v true = lcvViolations csp a v false →
      least_constraining_value csp a v = true) := by
  unfold least_constraining_value
  by_cases h : lcvViolations csp a v true ≤ lcvViolations csp a v false
  · rw [if_pos h]
    exact ⟨by simpa using h, fun _ => rfl⟩
  · rw [if_neg h]
    refine ⟨?_, fun he => absurd (le_of_eq he) h⟩
    simp only [Bool.not_false]
    omega

/-- C9 witness: on the clause-free one-variable solver the two violation
counts are tied and the returned value is true. -/
theorem c9_lcv_minimizes_witness :
    lcvViolations cspEmptyXbase [] "x" true = lcvViolations cspEmptyXbase [] "x" false ∧
    least_constraining_value cspEmptyXbase [] "x" = true :=
  ⟨by decide, (c9_lcv_minimizes cspEmptyXbase [] "x").2 (by decide)⟩

/-- C10: two successive `solve()` calls on the same solver object return
equal (solution, weight) pairs — `solve()` resets the incumbent and working
assignment at entry, and the embedded constraint predicates are pure. -/
theorem c10_solve_deterministic (s : CSPObj) :
    (CSPObj.solve (CSPObj.solve s).1).2 = (CSPObj.solve s).2 := rfl
